import Mathlib

/-!
Verification of the incremental collection / resumable graph assembly engine
of the ai-twitter-follows repository: the scroll-based collector loop with its
stall heuristic, the per-target batch scheduler with checkpoint skipping, and
the merge / ranking logic, shallowly embedded from the Python sources
(fetch_following.py, fetch_researcher_following.py, fetch_operator_following.py,
scrape_list_members.py).
-/

namespace AITwitterFollows

/-- An account identity: the username path segment, as a character sequence. -/
abbrev Ident := List Char

/-- The record built for each accepted user cell:
`{'username': ..., 'display_name': ...}` (fetch_researcher_following.py
lines 145-148).  The self-scrape variant additionally carries opaque metadata
fields (bio, follower counts, flags) that no collection logic reads; they are
elided as payload. -/
structure UserRecord where
  username : Ident
  display_name : Ident
deriving DecidableEq

/-- One rendered `UserCell` DOM element, reduced to what the extraction code
reads: the `href` attribute of its first profile link (`none` when the link or
the attribute is missing) and the display-name text. -/
structure Cell where
  href : Option Ident
  display_name : Ident

/-- Python `href.strip('/')`: drop leading and trailing `/` characters. -/
def stripSlash (l : Ident) : Ident :=
  ((l.dropWhile (fun c => c = '/')).reverse.dropWhile (fun c => c = '/')).reverse

/-- Does the second list start with the first one? -/
def startsWithSeq : List Char → List Char → Bool
  | [], _ => true
  | _ :: _, [] => false
  | p :: ps, c :: cs => p = c && startsWithSeq ps cs

/-- Python `pat in s` contiguous-substring test. -/
def containsSeq (pat : List Char) : List Char → Bool
  | [] => startsWithSeq pat []
  | c :: cs => startsWithSeq pat (c :: cs) || containsSeq pat cs

/-- The literal `/status/` used to reject tweet links. -/
def statusMarker : List Char := ['/', 's', 't', 'a', 't', 'u', 's', '/']

/-- Per-cell extraction and validation (fetch_researcher_following.py lines
122-149, identical in the operator and list-member variants, and the href
validation of fetch_following.py extract_user_from_cell lines 151-164):
reject a missing link or href, the bare `'/'`, any href containing `/status/`,
and a stripped username that is empty or still contains `/`. -/
def extractFromCell (c : Cell) : Option UserRecord :=
  match c.href with
  | none => none
  | some href =>
    if href = [] then none
    else if href = ['/'] then none
    else if containsSeq statusMarker href then none
    else
      let u := stripSlash href
      if u = [] then none
      else if '/' ∈ u then none
      else some ⟨u, c.display_name⟩

/-- `len(following_list) >= max_following` for the capped variants; the
self-scrape and list-member loops have no per-item cap (`none`). -/
def capReached : Option Nat → Nat → Bool
  | none, _ => false
  | some m, n => decide (m ≤ n)

/-- The per-cycle for-loop over the currently visible user cells
(fetch_researcher_following.py lines 118-153): break when the cap is reached,
extract and validate each cell, skip already-seen usernames, append accepted
records and remember their usernames. -/
def processCells (cap : Option Nat) :
    List UserRecord → List Ident → List Cell → List UserRecord × List Ident
  | res, seen, [] => (res, seen)
  | res, seen, c :: cs =>
    if capReached cap res.length then (res, seen)
    else
      match extractFromCell c with
      | none => processCells cap res seen cs
      | some r =>
        if r.username ∈ seen then processCells cap res seen cs
        else processCells cap (res ++ [r]) (seen ++ [r.username]) cs

/-- The loop parameters that vary across the four scripts. -/
structure CollectorConfig where
  maxItems : Option Nat
  maxStall : Nat
  maxScrolls : Option Nat

/-- The collector loop's mutable state: the accumulated result list, the seen
set, `last_count`, `no_new_users_count`, and the number of completed cycles. -/
structure CState where
  result : List UserRecord
  seen : List Ident
  lastCount : Nat
  stall : Nat
  cycle : Nat
deriving DecidableEq

/-- `following_list = []`, `seen_users = set()`, `last_count = 0`,
`no_new_users_count = 0`, before the first scroll cycle. -/
def initState : CState := ⟨[], [], 0, 0, 0⟩

/-- The while-loop guard: `len(following_list) < max_following` in the capped
variants, `scroll_count < max_scrolls` in the list-member variant, `True` in
the self-scrape variant. -/
def loopGuard (cfg : CollectorConfig) (st : CState) : Bool :=
  (match cfg.maxItems with
   | none => true
   | some m => decide (st.result.length < m))
  &&
  (match cfg.maxScrolls with
   | none => true
   | some ms => decide (st.cycle < ms))

/-- The scroll loop (fetch_following.py lines 111-146 and its three
variants): extract the visible cells, compare the result size with
`last_count`, on no change increment the stall counter and stop once it
reaches `max_stall`, otherwise reset it; then scroll and run the next cycle.
The recursion is fuel-indexed; the fuel only limits how many cycles can run
and every claim either bounds it or shows the result independent of it. -/
def collectorRun (cfg : CollectorConfig) (feed : Nat → List Cell) :
    Nat → CState → CState
  | 0, st => st
  | fuel + 1, st =>
    if loopGuard cfg st then
      let p := processCells cfg.maxItems st.result st.seen (feed st.cycle)
      if p.1.length = st.lastCount then
        if cfg.maxStall ≤ st.stall + 1 then
          ⟨p.1, p.2, p.1.length, st.stall + 1, st.cycle + 1⟩
        else
          collectorRun cfg feed fuel ⟨p.1, p.2, p.1.length, st.stall + 1, st.cycle + 1⟩
      else
        collectorRun cfg feed fuel ⟨p.1, p.2, p.1.length, 0, st.cycle + 1⟩
    else st

/-- fetch_following.py fetch_following: no item cap, no scroll bound; the
stall window is kept as a parameter `s` (source value `max_no_new = 3`). -/
def selfScrapeConfig (s : Nat) : CollectorConfig := ⟨none, s, none⟩

/-- fetch_user_following in the operator, researcher and list-member scripts:
item cap `max_following` (default 500), `max_no_new = 3`, no scroll bound. -/
def followingConfig (maxFollowing : Nat) : CollectorConfig :=
  ⟨some maxFollowing, 3, none⟩

/-- scrape_list_members.py fetch_list_members: no item cap, `max_no_new = 10`,
`max_scrolls = 200`. -/
def listMembersConfig : CollectorConfig := ⟨none, 10, some 200⟩

/-- The pure accumulation of the first `j` cycles of a feed, ignoring the
stop heuristic: what the result and seen lists hold after cycles `0..j-1`. -/
def accumulate (feed : Nat → List Cell) : Nat → List UserRecord × List Ident
  | 0 => ([], [])
  | j + 1 =>
    processCells none (accumulate feed j).1 (accumulate feed j).2 (feed j)

/-- The observable outcome of one call of `fetch_user_following` on a target:
the initial `wait_for_selector` timed out (`unavailable`, which the function
catches and turns into `[]`), the crawl completed with a record list, or some
other exception (navigation timeout, evaluate failure) escaped the function. -/
inductive CrawlOutcome where
  | unavailable
  | completed (records : List UserRecord)
  | raised
deriving DecidableEq

/-- The list `fetch_user_following` returns for a non-raising outcome. -/
def outcomeRecords : CrawlOutcome → List UserRecord
  | .unavailable => []
  | .completed l => l
  | .raised => []

/-- One row of the relationship network:
`{'operator'/'researcher': source, 'follows': username,
'follows_display_name': display}` (fetch_operator_following.py lines 196-215). -/
structure Edge where
  source : Ident
  follows : Ident
  follows_display_name : Ident
deriving DecidableEq

/-- The rows a target's record list contributes to `all_relationships`,
both when loaded from a checkpoint file and when freshly crawled. -/
def recordEdges (src : Ident) (recs : List UserRecord) : List Edge :=
  recs.map (fun r => ⟨src, r.username, r.display_name⟩)

/-- The checkpoint store: the set of `{username}_following.csv` files, as an
association list from target identity to its persisted record list. -/
abbrev CheckpointStore := List (Ident × List UserRecord)

/-- `output_file.exists()` plus `pd.read_csv`: the persisted record list for a
target, if its checkpoint file exists (first match wins). -/
def cpLookup (store : CheckpointStore) (t : Ident) : Option (List UserRecord) :=
  match store with
  | [] => none
  | (k, v) :: rest => if k = t then some v else cpLookup rest t

/-- The scheduler's running state: the checkpoint files on disk, the
`all_relationships` accumulator, the log of crawl attempts in order, and the
number of inter-target sleeps performed. -/
structure SchedState where
  checkpoints : CheckpointStore
  all_relationships : List Edge
  crawled : List Ident
  delays : Nat
deriving DecidableEq

/-- The per-target batch loop of fetch_operator_following.py main
(lines 186-219; fetch_researcher_following.py main is line-identical):
for the `i`-th target (1-based) out of `n`, if a checkpoint exists load it and
append its edges; otherwise run the collector (`beh` gives each target's crawl
outcome; an escaped exception aborts the whole loop, flagging the returned
Bool); save a checkpoint only when the result list is non-empty (`if
following:`); append the edges; sleep when `i < n`. -/
def schedRunAux (beh : Ident → CrawlOutcome) (n : Nat) :
    Nat → List Ident → SchedState → SchedState × Bool
  | _, [], s => (s, false)
  | i, t :: rest, s =>
    match cpLookup s.checkpoints t with
    | some recs =>
      schedRunAux beh n (i + 1) rest
        { s with all_relationships := s.all_relationships ++ recordEdges t recs }
    | none =>
      match beh t with
      | .raised => ({ s with crawled := s.crawled ++ [t] }, true)
      | o =>
        schedRunAux beh n (i + 1) rest
          { checkpoints :=
              if outcomeRecords o = [] then s.checkpoints
              else s.checkpoints ++ [(t, outcomeRecords o)],
            all_relationships := s.all_relationships ++ recordEdges t (outcomeRecords o),
            crawled := s.crawled ++ [t],
            delays := s.delays + (if i < n then 1 else 0) }

/-- A whole scheduler run over an ordered target list, starting from the
checkpoint files already on disk, with an empty accumulator. -/
def schedRun (beh : Ident → CrawlOutcome) (targets : List Ident)
    (store : CheckpointStore) : SchedState × Bool :=
  schedRunAux beh targets.length 1 targets ⟨store, [], [], 0⟩

/-- Keep-first deduplication with an explicit list of already-kept values. -/
def dedupAux {α : Type} [DecidableEq α] (seen : List α) : List α → List α
  | [] => []
  | x :: xs =>
    if x ∈ seen then dedupAux seen xs else x :: dedupAux (x :: seen) xs

/-- pandas `drop_duplicates()` keeping the first occurrence of each (whole)
row, order preserved. -/
def dedupKeepFirst {α : Type} [DecidableEq α] (l : List α) : List α :=
  dedupAux [] l

/-- scrape_list_members.py main lines 371-384: concatenate the prior aggregate
network with the new rows and `drop_duplicates()` over whole rows. -/
def mergeNetwork (existing newRows : List Edge) : List Edge :=
  dedupKeepFirst (existing ++ newRows)

/-- Number of occurrences of a value in a column. -/
def countOcc (t : Ident) (l : List Ident) : Nat :=
  (l.filter (fun x => x = t)).length

/-- Insertion step of a stable descending sort on the count component: the new
pair goes in front of the first element whose count does not exceed it. -/
def insertByCount (p : Ident × Nat) : List (Ident × Nat) → List (Ident × Nat)
  | [] => [p]
  | q :: qs => if q.2 ≤ p.2 then p :: q :: qs else q :: insertByCount p qs

/-- Stable sort, descending by count. -/
def sortByCountDesc (l : List (Ident × Nat)) : List (Ident × Nat) :=
  l.foldr insertByCount []

/-- Model of pandas `Series.value_counts()` (fetch_operator_following.py line
227): the distinct values in first-seen order, each with its number of
occurrences in the column, sorted by count descending (ties keeping the
first-seen order). -/
def valueCounts (l : List Ident) : List (Ident × Nat) :=
  sortByCountDesc ((dedupKeepFirst l).map (fun v => (v, countOcc v l)))

/-- The printed ranking (fetch_operator_following.py lines 227-233): the top
20 of `value_counts` over the `follows` column, each with
`percentage = (count / len(operators)) * 100`. -/
def rankingReport (edges : List Edge) (numTargets : Nat) :
    List (Ident × Nat × ℚ) :=
  ((valueCounts (edges.map (fun e => e.follows))).take 20).map
    (fun p => (p.1, p.2, ((p.2 : ℚ) / (numTargets : ℚ)) * 100))

/-- Follows the spec's words, for comparison with the code's ranking: the
number of distinct `source_identity` values among the edges whose
`target_username` is `t`. -/
def specDistinctSourceCount (edges : List Edge) (t : Ident) : Nat :=
  (dedupKeepFirst ((edges.filter (fun e => e.follows = t)).map
    (fun e => e.source))).length

/-- Python `str.strip()` whitespace predicate (ASCII range). -/
def isPySpace (c : Char) : Bool :=
  c = ' ' || c = '\t' || c = '\n' || c = '\r' || c = '\x0b' || c = '\x0c'

/-- Python `line.strip()`. -/
def pyStrip (l : List Char) : List Char :=
  ((l.dropWhile isPySpace).reverse.dropWhile isPySpace).reverse

/-- Reading the target list (fetch_operator_following.py lines 171-172,
fetch_researcher_following.py lines 190-191):
`[line.strip() for line in f.readlines() if line.strip()]`. -/
def readTargets (lines : List (List Char)) : List Ident :=
  (lines.map pyStrip).filter (fun l => l ≠ [])

/-- The invariant tying the seen set to the result list. -/
def GoodAcc (res : List UserRecord) (seen : List Ident) : Prop :=
  seen = res.map (fun r => r.username) ∧ seen.Nodup ∧
    ∀ r ∈ res, r.username ≠ [] ∧ '/' ∉ r.username

theorem processCells_append (cap : Option Nat) (cells : List Cell) :
    ∀ res seen, ∃ t : List UserRecord,
      processCells cap res seen cells
        = (res ++ t, seen ++ t.map (fun r => r.username)) := by
  induction cells with
  | nil =>
    intro res seen
    exact ⟨[], by simp [processCells]⟩
  | cons c cs ih =>
    intro res seen
    by_cases hcap : capReached cap res.length = true
    · exact ⟨[], by simp [processCells, hcap]⟩
    · rcases hext : extractFromCell c with _ | r
      · rcases ih res seen with ⟨t, ht⟩
        exact ⟨t, by simp [processCells, hcap, hext, ht]⟩
      · by_cases hseen : r.username ∈ seen
        · rcases ih res seen with ⟨t, ht⟩
          exact ⟨t, by simp [processCells, hcap, hext, hseen, ht]⟩
        · rcases ih (res ++ [r]) (seen ++ [r.username]) with ⟨t, ht⟩
          refine ⟨r :: t, ?_⟩
          simp [processCells, hcap, hext, hseen, ht]

theorem extractFromCell_valid {c : Cell} {r : UserRecord}
    (h : extractFromCell c = some r) : r.username ≠ [] ∧ '/' ∉ r.username := by
  unfold extractFromCell at h
  rcases hc : c.href with _ | href <;> rw [hc] at h
  · exact absurd h (by simp)
  · simp only at h
    split_ifs at h with h1 h2 h3 h4 h5
    cases h
    exact ⟨h4, h5⟩

theorem processCells_good (cap : Option Nat) (cells : List Cell) :
    ∀ res seen, GoodAcc res seen →
      GoodAcc (processCells cap res seen cells).1 (processCells cap res seen cells).2 := by
  induction cells with
  | nil => intro res seen h; simpa [processCells] using h
  | cons c cs ih =>
    intro res seen h
    by_cases hcap : capReached cap res.length = true
    · simpa [processCells, hcap] using h
    · rcases hext : extractFromCell c with _ | r
      · simpa [processCells, hcap, hext] using ih res seen h
      · by_cases hseen : r.username ∈ seen
        · simpa [processCells, hcap, hext, hseen] using ih res seen h
        · have hgood : GoodAcc (res ++ [r]) (seen ++ [r.username]) := by
            obtain ⟨hsync, hnd, hval⟩ := h
            refine ⟨by simp [hsync], ?_, ?_⟩
            · simp only [List.nodup_append]
              exact ⟨hnd, List.nodup_singleton _, by simpa using fun hmem => hseen hmem⟩
            · intro x hx
              rcases List.mem_append.1 hx with hx | hx
              · exact hval x hx
              · rcases List.mem_singleton.1 hx with rfl
                exact extractFromCell_valid hext
          simpa [processCells, hcap, hext, hseen] using
            ih (res ++ [r]) (seen ++ [r.username]) hgood

theorem collectorRun_good (cfg : CollectorConfig) (feed : Nat → List Cell) :
    ∀ fuel st, GoodAcc st.result st.seen →
      GoodAcc (collectorRun cfg feed fuel st).result (collectorRun cfg feed fuel st).seen := by
  intro fuel
  induction fuel with
  | zero => intro st h; simpa [collectorRun] using h
  | succ fuel ih =>
    intro st h
    rw [collectorRun]
    by_cases hg : loopGuard cfg st = true
    · rw [if_pos hg]
      have hp := processCells_good cfg.maxItems (feed st.cycle) st.result st.seen h
      by_cases heq :
          (processCells cfg.maxItems st.result st.seen (feed st.cycle)).1.length = st.lastCount
      · rw [if_pos heq]
        by_cases hstall : cfg.maxStall ≤ st.stall + 1
        · rw [if_pos hstall]; exact hp
        · rw [if_neg hstall]; exact ih _ hp
      · rw [if_neg heq]; exact ih _ hp
    · rw [if_neg hg]; exact h

/-- C2: for every run of every collector variant (any cap, stall window and
scroll bound, hence the self-following, operator, researcher and list-member
configurations alike), the returned result sequence contains no two records
with equal username keys, and every accepted record's username is non-empty
and contains no `/` character. -/
theorem collector_dedup_invariant (cfg : CollectorConfig) (feed : Nat → List Cell)
    (fuel : Nat) :
    ((collectorRun cfg feed fuel initState).result.map (fun r => r.username)).Nodup ∧
    ∀ r ∈ (collectorRun cfg feed fuel initState).result,
      r.username ≠ [] ∧ '/' ∉ r.username := by
  have h := collectorRun_good cfg feed fuel initState ⟨rfl, List.nodup_nil, fun r hr => by simp [initState] at hr⟩
  obtain ⟨hsync, hnd, hval⟩ := h
  exact ⟨hsync ▸ hnd, hval⟩

theorem collector_dedup_invariant_witness :
    ((collectorRun (selfScrapeConfig 3) (fun _ => [⟨some ['/', 'a'], ['A']⟩]) 10
        initState).result.map (fun r => r.username)).Nodup ∧
    (⟨['a'], ['A']⟩ : UserRecord).username ≠ [] ∧
    '/' ∉ (⟨['a'], ['A']⟩ : UserRecord).username :=
  ⟨(collector_dedup_invariant (selfScrapeConfig 3)
      (fun _ => [⟨some ['/', 'a'], ['A']⟩]) 10).1,
   (collector_dedup_invariant (selfScrapeConfig 3)
      (fun _ => [⟨some ['/', 'a'], ['A']⟩]) 10).2 ⟨['a'], ['A']⟩ (by decide)⟩

theorem processCells_cap_le (m : Nat) (cells : List Cell) :
    ∀ res seen, res.length ≤ m →
      (processCells (some m) res seen cells).1.length ≤ m := by
  induction cells with
  | nil => intro res seen h; simpa [processCells] using h
  | cons c cs ih =>
    intro res seen h
    by_cases hcap : capReached (some m) res.length = true
    · simpa [processCells, hcap] using h
    · have hlt : res.length < m := by simpa [capReached] using hcap
      rcases hext : extractFromCell c with _ | r
      · simpa [processCells, hcap, hext] using ih res seen h
      · by_cases hseen : r.username ∈ seen
        · simpa [processCells, hcap, hext, hseen] using ih res seen h
        · have : (res ++ [r]).length ≤ m := by simp; omega
          simpa [processCells, hcap, hext, hseen] using
            ih (res ++ [r]) (seen ++ [r.username]) this

theorem processCells_cap_exact (m : Nat) (cells : List Cell) :
    ∀ res seen, res.length ≤ m →
      m ≤ (processCells none res seen cells).1.length →
      (processCells (some m) res seen cells).1.length = m := by
  induction cells with
  | nil =>
    intro res seen h1 h2
    simp only [processCells] at h2 ⊢
    exact le_antisymm h1 h2
  | cons c cs ih =>
    intro res seen h1 h2
    by_cases hcap : capReached (some m) res.length = true
    · have hm : m ≤ res.length := by simpa [capReached] using hcap
      simp only [processCells, hcap, if_true]
      exact le_antisymm h1 hm
    · have hlt : res.length < m := by simpa [capReached] using hcap
      have hnotle : ¬ m ≤ res.length := by omega
      rcases hext : extractFromCell c with _ | r
      · simp only [processCells, capReached, hext, decide_eq_true_eq, if_neg hnotle,
          Bool.false_eq_true, if_false] at h2 ⊢
        exact ih res seen h1 h2
      · by_cases hseen : r.username ∈ seen
        · simp only [processCells, capReached, hext, decide_eq_true_eq, if_neg hnotle,
            Bool.false_eq_true, if_false, if_pos hseen] at h2 ⊢
          exact ih res seen h1 h2
        · simp only [processCells, capReached, hext, decide_eq_true_eq, if_neg hnotle,
            Bool.false_eq_true, if_false, if_neg hseen] at h2 ⊢
          refine ih (res ++ [r]) (seen ++ [r.username]) (by simp; omega) h2

theorem collectorRun_cap_le (m : Nat) (feed : Nat → List Cell) :
    ∀ fuel st, st.result.length ≤ m →
      (collectorRun (followingConfig m) feed fuel st).result.length ≤ m := by
  intro fuel
  induction fuel with
  | zero => intro st h; simpa [collectorRun] using h
  | succ fuel ih =>
    intro st h
    rw [collectorRun]
    by_cases hg : loopGuard (followingConfig m) st = true
    · rw [if_pos hg]
      have hp := processCells_cap_le m (feed st.cycle) st.result st.seen h
      by_cases heq :
          (processCells (followingConfig m).maxItems st.result st.seen (feed st.cycle)).1.length
            = st.lastCount
      · rw [if_pos heq]
        by_cases hstall : (followingConfig m).maxStall ≤ st.stall + 1
        · rw [if_pos hstall]; exact hp
        · rw [if_neg hstall]; exact ih _ hp
      · rw [if_neg heq]; exact ih _ hp
    · rw [if_neg hg]; exact h

theorem collectorRun_capped_stops (m : Nat) (feed : Nat → List Cell) (fuel : Nat)
    (st : CState) (h : m ≤ st.result.length) :
    collectorRun (followingConfig m) feed fuel st = st := by
  cases fuel with
  | zero => rfl
  | succ fuel =>
    rw [collectorRun]
    have hg : loopGuard (followingConfig m) st = false := by
      simp [loopGuard, followingConfig]
      omega
    rw [hg]
    simp

/-- C8 (amended): the `fetch_user_following` collectors of the operator,
researcher and list-member scripts take a `max_items` cap and return at most
`max_items` records; once the result length reaches the cap the loop stops
immediately (the state is returned unchanged); and when the cap is reached
mid-cycle (the uncapped processing of the same cells would reach at least
`m`), the capped cycle returns exactly `m` records, never more. The
self-following and list-member-collection loops take no item cap. -/
theorem cap_correctness (m : Nat) (feed : Nat → List Cell) (fuel : Nat) :
    (collectorRun (followingConfig m) feed fuel initState).result.length ≤ m ∧
    (∀ st : CState, m ≤ st.result.length →
      collectorRun (followingConfig m) feed fuel st = st) ∧
    (∀ (res : List UserRecord) (seen : List Ident) (cells : List Cell),
      res.length ≤ m →
      m ≤ (processCells none res seen cells).1.length →
      (processCells (some m) res seen cells).1.length = m) :=
  ⟨collectorRun_cap_le m feed fuel initState (by simp [initState]),
   fun st h => collectorRun_capped_stops m feed fuel st h,
   fun res seen cells h1 h2 => processCells_cap_exact m cells res seen h1 h2⟩

theorem cap_correctness_witness :
    (collectorRun (followingConfig 1)
      (fun _ => [⟨some ['/', 'a'], []⟩, ⟨some ['/', 'b'], []⟩]) 5 initState).result.length ≤ 1 ∧
    collectorRun (followingConfig 1) (fun _ => [])
      5 ⟨[⟨['a'], []⟩], [['a']], 1, 0, 0⟩ = ⟨[⟨['a'], []⟩], [['a']], 1, 0, 0⟩ ∧
    (processCells (some 1) [] [] [⟨some ['/', 'a'], []⟩, ⟨some ['/', 'b'], []⟩]).1.length = 1 :=
  ⟨(cap_correctness 1 (fun _ => [⟨some ['/', 'a'], []⟩, ⟨some ['/', 'b'], []⟩]) 5).1,
   (cap_correctness 1 (fun _ => []) 5).2.1 ⟨[⟨['a'], []⟩], [['a']], 1, 0, 0⟩ (by decide),
   (cap_correctness 1 (fun _ => []) 5).2.2 [] []
     [⟨some ['/', 'a'], []⟩, ⟨some ['/', 'b'], []⟩] (by decide) (by decide)⟩

/-- C8 counterexample: not every collector run takes a `max_items` cap. The
self-following loop of fetch_following.py (`while True:`) and the list-member
collection loop carry no item cap at all (`maxItems = none`), and a concrete
self-variant run returns 2 records, exceeding a purported cap of 1 — its
result size is bounded by no cap input. -/
theorem self_collector_has_no_cap :
    (selfScrapeConfig 3).maxItems = none ∧
    listMembersConfig.maxItems = none ∧
    1 < (collectorRun (selfScrapeConfig 3)
      (fun _ => [⟨some ['/', 'a'], []⟩, ⟨some ['/', 'b'], []⟩]) 10
      initState).result.length := by
  exact ⟨rfl, rfl, by decide⟩

theorem collectorRun_guard_false {cfg : CollectorConfig} {feed : Nat → List Cell}
    {st : CState} (h : loopGuard cfg st = false) :
    ∀ fuel, collectorRun cfg feed fuel st = st := by
  intro fuel
  cases fuel with
  | zero => rfl
  | succ fuel => rw [collectorRun, h]; simp

theorem collectorRun_scroll_le (feed : Nat → List Cell) :
    ∀ fuel st, st.cycle ≤ 200 →
      (collectorRun listMembersConfig feed fuel st).cycle ≤ 200 := by
  intro fuel
  induction fuel with
  | zero => intro st h; simpa [collectorRun] using h
  | succ fuel ih =>
    intro st h
    rw [collectorRun]
    by_cases hg : loopGuard listMembersConfig st = true
    · rw [if_pos hg]
      have hlt : st.cycle < 200 := by
        simpa [loopGuard, listMembersConfig] using hg
      by_cases heq :
          (processCells listMembersConfig.maxItems st.result st.seen (feed st.cycle)).1.length
            = st.lastCount
      · rw [if_pos heq]
        by_cases hstall : listMembersConfig.maxStall ≤ st.stall + 1
        · rw [if_pos hstall]; simp; omega
        · rw [if_neg hstall]; exact ih _ (by simp; omega)
      · rw [if_neg heq]; exact ih _ (by simp; omega)
    · rw [if_neg hg]; exact h

theorem collectorRun_fuel_free (feed : Nat → List Cell) :
    ∀ f1 f2 st, 200 - st.cycle ≤ f1 → 200 - st.cycle ≤ f2 →
      collectorRun listMembersConfig feed f1 st
        = collectorRun listMembersConfig feed f2 st := by
  intro f1
  induction f1 with
  | zero =>
    intro f2 st h1 _
    have hg : loopGuard listMembersConfig st = false := by
      simp [loopGuard, listMembersConfig]
      omega
    rw [collectorRun_guard_false hg f2]
    rfl
  | succ f1 ih =>
    intro f2 st h1 h2
    by_cases hg : loopGuard listMembersConfig st = true
    · have hlt : st.cycle < 200 := by
        simpa [loopGuard, listMembersConfig] using hg
      cases f2 with
      | zero => omega
      | succ f2 =>
        rw [collectorRun, collectorRun, if_pos hg, if_pos hg]
        by_cases heq :
            (processCells listMembersConfig.maxItems st.result st.seen (feed st.cycle)).1.length
              = st.lastCount
        · rw [if_pos heq, if_pos heq]
          by_cases hstall : listMembersConfig.maxStall ≤ st.stall + 1
          · rw [if_pos hstall, if_pos hstall]
          · rw [if_neg hstall, if_neg hstall]
            exact ih f2 _ (by simp; omega) (by simp; omega)
        · rw [if_neg heq, if_neg heq]
          exact ih f2 _ (by simp; omega) (by simp; omega)
    · rw [collectorRun_guard_false (Bool.not_eq_true _ ▸ hg) (f1 + 1),
        collectorRun_guard_false (Bool.not_eq_true _ ▸ hg) f2]

/-- C10: the list-member collection loop always terminates: it executes at
most 200 scroll cycles (`max_scrolls = 200`) for every feed, even one that
yields new members on every cycle, and any fuel of at least 200 cycles gives
the same result as exactly 200, so the fuel index is immaterial. -/
theorem list_member_termination (feed : Nat → List Cell) (fuel : Nat) :
    (collectorRun listMembersConfig feed fuel initState).cycle ≤ 200 ∧
    (200 ≤ fuel →
      collectorRun listMembersConfig feed fuel initState
        = collectorRun listMembersConfig feed 200 initState) :=
  ⟨collectorRun_scroll_le feed fuel initState (by simp [initState]),
   fun h => collectorRun_fuel_free feed fuel 200 initState
     (by simp [initState]; omega) (by simp [initState])⟩

theorem list_member_termination_witness :
    collectorRun listMembersConfig (fun _ => []) 300 initState
      = collectorRun listMembersConfig (fun _ => []) 200 initState :=
  (list_member_termination (fun _ => []) 300).2 (by decide)

theorem accumulate_sync (feed : Nat → List Cell) :
    ∀ j, (accumulate feed j).2 = (accumulate feed j).1.map (fun r => r.username) := by
  intro j
  induction j with
  | zero => rfl
  | succ j ih =>
    rw [accumulate]
    rcases processCells_append none (feed j) (accumulate feed j).1 (accumulate feed j).2
      with ⟨t, ht⟩
    rw [ht]
    simp [ih]

theorem accumulate_stable (feed : Nat → List Cell) (k0 : Nat)
    (hstop : ∀ j, k0 ≤ j →
      (accumulate feed (j + 1)).1.length = (accumulate feed j).1.length) :
    ∀ j, k0 ≤ j → accumulate feed j = accumulate feed k0 := by
  intro j
  induction j with
  | zero =>
    intro hj
    have : k0 = 0 := Nat.le_zero.mp hj
    rw [this]
  | succ j ih =>
    intro hj
    by_cases h : k0 ≤ j
    · have hstep : accumulate feed (j + 1) = accumulate feed j := by
        rcases processCells_append none (feed j) (accumulate feed j).1 (accumulate feed j).2
          with ⟨t, ht⟩
        have hlen := hstop j h
        rw [accumulate, ht] at hlen ⊢
        have hnil : t = [] := by
          simp only [List.length_append] at hlen
          exact List.eq_nil_of_length_eq_zero (by omega)
        rw [hnil]
        simp
      rw [hstep]
      exact ih h
    · have : k0 = j + 1 := by omega
      rw [this]

theorem collectorRun_succ (cfg : CollectorConfig) (feed : Nat → List Cell)
    (fuel : Nat) (st : CState) :
    collectorRun cfg feed (fuel + 1) st =
      if loopGuard cfg st then
        (let p := processCells cfg.maxItems st.result st.seen (feed st.cycle)
         if p.1.length = st.lastCount then
           if cfg.maxStall ≤ st.stall + 1 then
             ⟨p.1, p.2, p.1.length, st.stall + 1, st.cycle + 1⟩
           else collectorRun cfg feed fuel ⟨p.1, p.2, p.1.length, st.stall + 1, st.cycle + 1⟩
         else collectorRun cfg feed fuel ⟨p.1, p.2, p.1.length, 0, st.cycle + 1⟩)
      else st := rfl

theorem convergence_phase2 (feed : Nat → List Cell) (k0 s : Nat)
    (hstop : ∀ j, k0 ≤ j →
      (accumulate feed (j + 1)).1.length = (accumulate feed j).1.length) :
    ∀ fuel i, i < s → s - i ≤ fuel →
      collectorRun ⟨none, s, none⟩ feed fuel
        ⟨(accumulate feed k0).1, (accumulate feed k0).2,
          (accumulate feed k0).1.length, i, k0 + i⟩
        = ⟨(accumulate feed k0).1, (accumulate feed k0).2,
            (accumulate feed k0).1.length, s, k0 + s⟩ := by
  intro fuel
  induction fuel with
  | zero => intro i h1 h2; omega
  | succ fuel ih =>
    intro i h1 h2
    have hacc : processCells none (accumulate feed k0).1 (accumulate feed k0).2
        (feed (k0 + i)) = accumulate feed k0 := by
      have e1 := accumulate_stable feed k0 hstop (k0 + i) (by omega)
      have e2 := accumulate_stable feed k0 hstop (k0 + i + 1) (by omega)
      calc processCells none (accumulate feed k0).1 (accumulate feed k0).2 (feed (k0 + i))
          = processCells none (accumulate feed (k0 + i)).1 (accumulate feed (k0 + i)).2
              (feed (k0 + i)) := by rw [e1]
        _ = accumulate feed (k0 + i + 1) := rfl
        _ = accumulate feed k0 := e2
    rw [collectorRun_succ]
    dsimp only
    rw [hacc]
    simp only [loopGuard]
    norm_num
    by_cases hstall : s ≤ i + 1
    · rw [if_pos hstall]
      have hs1 : i + 1 = s := by omega
      rw [hs1, show k0 + i + 1 = k0 + s by omega]
    · rw [if_neg hstall]
      have := ih (i + 1) (by omega) (by omega)
      rw [show k0 + i + 1 = k0 + (i + 1) from rfl]
      exact this

theorem convergence_phase1 (feed : Nat → List Cell) (k0 s : Nat)
    (hs : 0 < s)
    (hgrow : ∀ j, j < k0 →
      (accumulate feed j).1.length < (accumulate feed (j + 1)).1.length)
    (hstop : ∀ j, k0 ≤ j →
      (accumulate feed (j + 1)).1.length = (accumulate feed j).1.length) :
    ∀ fuel j, j ≤ k0 → (k0 - j) + s ≤ fuel →
      collectorRun ⟨none, s, none⟩ feed fuel
        ⟨(accumulate feed j).1, (accumulate feed j).2,
          (accumulate feed j).1.length, 0, j⟩
        = ⟨(accumulate feed k0).1, (accumulate feed k0).2,
            (accumulate feed k0).1.length, s, k0 + s⟩ := by
  intro fuel
  induction fuel with
  | zero => intro j h1 h2; omega
  | succ fuel ih =>
    intro j h1 h2
    by_cases hjk : j = k0
    · subst hjk
      have := convergence_phase2 feed j s hstop (fuel + 1) 0 hs (by omega)
      rw [show j + 0 = j from rfl] at this
      exact this
    · have hlt : j < k0 := by omega
      have hacc : processCells none (accumulate feed j).1 (accumulate feed j).2 (feed j)
          = accumulate feed (j + 1) := rfl
      have hne : ¬ (accumulate feed (j + 1)).1.length = (accumulate feed j).1.length := by
        have := hgrow j hlt
        omega
      rw [collectorRun_succ]
      dsimp only
      rw [hacc]
      simp only [loopGuard]
      norm_num
      rw [if_neg hne]
      exact ih (j + 1) (by omega) (by omega)

/-- C1: for a synthetic feed whose accumulated candidate set grows strictly
during the first `k0` cycles and stops growing from cycle `k0` on, the
collector loop of `fetch_following` with stall threshold `s ≥ 1` stops
exactly after cycle `k0 + s` and returns exactly the deduplicated record
sequence present at cycle `k0`, in first-seen order. -/
theorem convergence_correctness (feed : Nat → List Cell) (k0 s fuel : Nat)
    (hs : 0 < s) (hfuel : k0 + s ≤ fuel)
    (hgrow : ∀ j, j < k0 →
      (accumulate feed j).1.length < (accumulate feed (j + 1)).1.length)
    (hstop : ∀ j, k0 ≤ j →
      (accumulate feed (j + 1)).1.length = (accumulate feed j).1.length) :
    (collectorRun (selfScrapeConfig s) feed fuel initState).cycle = k0 + s ∧
    (collectorRun (selfScrapeConfig s) feed fuel initState).result
      = (accumulate feed k0).1 := by
  have h := convergence_phase1 feed k0 s hs hgrow hstop fuel 0 (by omega) (by omega)
  have hinit : initState
      = (⟨(accumulate feed 0).1, (accumulate feed 0).2,
          (accumulate feed 0).1.length, 0, 0⟩ : CState) := rfl
  rw [selfScrapeConfig, hinit, h]
  exact ⟨rfl, rfl⟩

theorem accumulate_empty_feed : ∀ j, accumulate (fun _ => []) j = ([], []) := by
  intro j
  induction j with
  | zero => rfl
  | succ j ih => rw [accumulate, ih]; rfl

theorem convergence_correctness_witness :
    (collectorRun (selfScrapeConfig 2) (fun _ => []) 5 initState).cycle = 0 + 2 ∧
    (collectorRun (selfScrapeConfig 2) (fun _ => []) 5 initState).result
      = (accumulate (fun _ => []) 0).1 :=
  convergence_correctness (fun _ => []) 0 2 5 (by decide) (by decide)
    (fun j hj => absurd hj (Nat.not_lt_zero j))
    (fun j _ => by rw [accumulate_empty_feed, accumulate_empty_feed])

theorem dedupAux_congr {α : Type} [DecidableEq α] (l : List α) :
    ∀ s₁ s₂ : List α, (∀ a : α, a ∈ s₁ ↔ a ∈ s₂) → dedupAux s₁ l = dedupAux s₂ l := by
  induction l with
  | nil => intro _ _ _; rfl
  | cons x xs ih =>
    intro s₁ s₂ h
    by_cases hx : x ∈ s₁
    · rw [dedupAux, dedupAux, if_pos hx, if_pos ((h x).1 hx)]
      exact ih _ _ h
    · rw [dedupAux, dedupAux, if_neg hx, if_neg (fun hm => hx ((h x).2 hm))]
      congr 1
      refine ih _ _ (fun a => ?_)
      simp [List.mem_cons, h a]

theorem mem_dedupAux {α : Type} [DecidableEq α] (l : List α) :
    ∀ (seen : List α) (a : α), a ∈ dedupAux seen l ↔ a ∈ l ∧ a ∉ seen := by
  induction l with
  | nil => intro seen a; simp [dedupAux]
  | cons x xs ih =>
    intro seen a
    by_cases hx : x ∈ seen
    · rw [dedupAux, if_pos hx, ih]
      constructor
      · rintro ⟨h1, h2⟩; exact ⟨List.mem_cons_of_mem _ h1, h2⟩
      · rintro ⟨h1, h2⟩
        rcases List.mem_cons.1 h1 with rfl | h1
        · exact absurd hx h2
        · exact ⟨h1, h2⟩
    · rw [dedupAux, if_neg hx]
      constructor
      · intro hm
        rcases List.mem_cons.1 hm with rfl | hm
        · exact ⟨List.mem_cons_self _ _, hx⟩
        · rcases (ih _ _).1 hm with ⟨h1, h2⟩
          exact ⟨List.mem_cons_of_mem _ h1, fun hs => h2 (List.mem_cons_of_mem _ hs)⟩
      · rintro ⟨h1, h2⟩
        rcases List.mem_cons.1 h1 with rfl | h1
        · exact List.mem_cons_self _ _
        · by_cases hax : a = x
          · exact hax ▸ List.mem_cons_self _ _
          · exact List.mem_cons_of_mem _
              ((ih _ _).2 ⟨h1, by simp [List.mem_cons, hax, h2]⟩)

theorem nodup_dedupAux {α : Type} [DecidableEq α] (l : List α) :
    ∀ seen : List α, (dedupAux seen l).Nodup := by
  induction l with
  | nil => intro _; simp [dedupAux]
  | cons x xs ih =>
    intro seen
    by_cases hx : x ∈ seen
    · rw [dedupAux, if_pos hx]; exact ih seen
    · rw [dedupAux, if_neg hx]
      refine List.Nodup.cons ?_ (ih _)
      rw [mem_dedupAux]
      simp

theorem dedupAux_eq_self {α : Type} [DecidableEq α] (l : List α) :
    ∀ seen : List α, l.Nodup → (∀ a ∈ l, a ∉ seen) → dedupAux seen l = l := by
  induction l with
  | nil => intro _ _ _; rfl
  | cons x xs ih =>
    intro seen hnd hdisj
    rw [dedupAux, if_neg (hdisj x (List.mem_cons_self _ _))]
    congr 1
    refine ih _ (List.Nodup.of_cons hnd) (fun a ha => ?_)
    have hax : a ≠ x := fun he => (List.nodup_cons.1 hnd).1 (he ▸ ha)
    simp [List.mem_cons, hax, hdisj a (List.mem_cons_of_mem _ ha)]

theorem dedupAux_append {α : Type} [DecidableEq α] (l₁ l₂ : List α) :
    ∀ seen : List α,
      dedupAux seen (l₁ ++ l₂) = dedupAux seen l₁ ++ dedupAux (l₁ ++ seen) l₂ := by
  induction l₁ with
  | nil => intro seen; rfl
  | cons x xs ih =>
    intro seen
    by_cases hx : x ∈ seen
    · rw [List.cons_append, dedupAux, if_pos hx, dedupAux, if_pos hx, ih]
      congr 1
      refine dedupAux_congr _ _ _ (fun a => ?_)
      simp only [List.cons_append, List.mem_append, List.mem_cons]
      constructor
      · rintro (h | h)
        · exact Or.inr (Or.inl h)
        · exact Or.inr (Or.inr h)
      · rintro (rfl | h | h)
        · exact Or.inr hx
        · exact Or.inl h
        · exact Or.inr h
    · rw [List.cons_append, dedupAux, if_neg hx, dedupAux, if_neg hx, ih,
        List.cons_append]
      congr 2
      refine dedupAux_congr _ _ _ (fun a => ?_)
      simp only [List.cons_append, List.mem_append, List.mem_cons]
      constructor
      · rintro (h | rfl | h)
        · exact Or.inr (Or.inl h)
        · exact Or.inl rfl
        · exact Or.inr (Or.inr h)
      · rintro (rfl | h | h)
        · exact Or.inr (Or.inl rfl)
        · exact Or.inl h
        · exact Or.inr (Or.inr h)

theorem dedupAux_nil_of_subset {α : Type} [DecidableEq α] (l : List α) :
    ∀ seen : List α, (∀ a ∈ l, a ∈ seen) → dedupAux seen l = [] := by
  induction l with
  | nil => intro _ _; rfl
  | cons x xs ih =>
    intro seen h
    rw [dedupAux, if_pos (h x (List.mem_cons_self _ _))]
    exact ih seen (fun a ha => h a (List.mem_cons_of_mem _ ha))

theorem dedupKeepFirst_nodup {α : Type} [DecidableEq α] (l : List α) :
    (dedupKeepFirst l).Nodup :=
  nodup_dedupAux l []

theorem dedupKeepFirst_eq_self {α : Type} [DecidableEq α] {l : List α}
    (h : l.Nodup) : dedupKeepFirst l = l :=
  dedupAux_eq_self l [] h (fun a _ => List.not_mem_nil a)

theorem dedupKeepFirst_self_append {α : Type} [DecidableEq α] (l : List α) :
    dedupKeepFirst (l ++ l) = dedupKeepFirst l := by
  rw [dedupKeepFirst, dedupKeepFirst, dedupAux_append]
  rw [dedupAux_nil_of_subset l (l ++ []) (fun a ha => by simpa using ha)]
  simp

/-- C4 (amended): the assembled RelationshipGraph is the union of the rows
deduplicated by the full `(source_identity, target_username, display_name)`
row — not by the `(source_identity, target_username)` pair — so it is free of
duplicate rows, and merging a RelationshipGraph with itself yields an
identical graph (no growth, no duplicate rows). -/
theorem merge_row_dedup_idempotent (a b : List Edge) :
    mergeNetwork (mergeNetwork a b) (mergeNetwork a b) = mergeNetwork a b ∧
    (mergeNetwork a b).Nodup := by
  refine ⟨?_, nodup_dedupAux _ _⟩
  rw [mergeNetwork, mergeNetwork, dedupKeepFirst_self_append]
  exact dedupKeepFirst_eq_self (nodup_dedupAux _ _)

/-- C4 counterexample: two rows sharing the `(source, target)` pair but
differing in the display-name payload both survive the merge, so the merged
graph is not free of duplicate `(source_identity, target_username)` keys. -/
theorem merge_duplicate_pair_key_counterexample :
    ¬ ((mergeNetwork [] [⟨['A'], ['x'], ['1']⟩, ⟨['A'], ['x'], ['2']⟩]).map
        (fun e => (e.source, e.follows))).Nodup := by decide

theorem nodup_sources_of_nodup_pairs (es : List Edge) (t : Ident)
    (h : (es.map (fun e => (e.source, e.follows))).Nodup) :
    ((es.filter (fun e => e.follows = t)).map (fun e => e.source)).Nodup := by
  induction es with
  | nil => simp
  | cons e es ih =>
    simp only [List.map_cons, List.nodup_cons] at h
    obtain ⟨hne, hnd⟩ := h
    by_cases he : e.follows = t
    · rw [List.filter_cons_of_pos (by simp [he])]
      simp only [List.map_cons, List.nodup_cons]
      refine ⟨?_, ih hnd⟩
      intro hmem
      rcases List.mem_map.1 hmem with ⟨e', he', hsrc⟩
      rcases List.mem_filter.1 he' with ⟨he'mem, he't⟩
      refine hne (List.mem_map.2 ⟨e', he'mem, ?_⟩)
      have h2 : e'.follows = t := by simpa using he't
      rw [hsrc, h2, he]
    · rw [List.filter_cons_of_neg (by simp [he])]
      exact ih hnd

theorem countOcc_filter_length (es : List Edge) (t : Ident) :
    countOcc t (es.map (fun e => e.follows))
      = ((es.filter (fun e => e.follows = t)).map (fun e => e.source)).length := by
  induction es with
  | nil => rfl
  | cons e es ih =>
    by_cases he : e.follows = t
    · rw [List.map_cons, countOcc, List.filter_cons_of_pos (by simp [he]),
        List.filter_cons_of_pos (by simp [he])]
      simp only [List.map_cons, List.length_cons]
      rw [← countOcc, ih]
    · rw [List.map_cons, countOcc, List.filter_cons_of_neg (by simp [he]),
        List.filter_cons_of_neg (by simp [he])]
      rw [← countOcc, ih]

theorem count_eq_distinct_sources (es : List Edge) (t : Ident)
    (h : (es.map (fun e => (e.source, e.follows))).Nodup) :
    countOcc t (es.map (fun e => e.follows)) = specDistinctSourceCount es t := by
  rw [specDistinctSourceCount,
    dedupKeepFirst_eq_self (nodup_sources_of_nodup_pairs es t h),
    countOcc_filter_length]

theorem mem_insertByCount (p : Ident × Nat) (l : List (Ident × Nat)) (q : Ident × Nat) :
    q ∈ insertByCount p l ↔ q = p ∨ q ∈ l := by
  induction l with
  | nil => simp [insertByCount]
  | cons r rs ih =>
    rw [insertByCount]
    by_cases h : r.2 ≤ p.2
    · rw [if_pos h]
      simp [List.mem_cons]
    · rw [if_neg h]
      simp only [List.mem_cons, ih]
      tauto

theorem sorted_insertByCount (p : Ident × Nat) (l : List (Ident × Nat))
    (h : l.Pairwise (fun a b => b.2 ≤ a.2)) :
    (insertByCount p l).Pairwise (fun a b => b.2 ≤ a.2) := by
  induction l with
  | nil => simp [insertByCount]
  | cons r rs ih =>
    rw [insertByCount]
    rcases List.pairwise_cons.1 h with ⟨hr, hrs⟩
    by_cases hc : r.2 ≤ p.2
    · rw [if_pos hc]
      refine List.pairwise_cons.2 ⟨?_, h⟩
      intro q hq
      rcases List.mem_cons.1 hq with rfl | hq
      · exact hc
      · exact le_trans (hr q hq) hc
    · rw [if_neg hc]
      refine List.pairwise_cons.2 ⟨?_, ih hrs⟩
      intro q hq
      rcases (mem_insertByCount p rs q).1 hq with rfl | hq
      · omega
      · exact hr q hq

theorem sorted_sortByCountDesc (l : List (Ident × Nat)) :
    (sortByCountDesc l).Pairwise (fun a b => b.2 ≤ a.2) := by
  induction l with
  | nil => simp [sortByCountDesc]
  | cons p ps ih => exact sorted_insertByCount p _ ih

theorem filter_insertByCount (p : Ident × Nat) (l : List (Ident × Nat)) (c : Nat) :
    (insertByCount p l).filter (fun q => q.2 = c)
      = if p.2 = c then p :: l.filter (fun q => q.2 = c)
        else l.filter (fun q => q.2 = c) := by
  induction l with
  | nil =>
    rw [insertByCount]
    by_cases hp : p.2 = c
    · rw [if_pos hp, List.filter_cons_of_pos (by simp [hp])]
    · rw [if_neg hp, List.filter_cons_of_neg (by simp [hp])]
  | cons r rs ih =>
    rw [insertByCount]
    by_cases hc : r.2 ≤ p.2
    · rw [if_pos hc]
      by_cases hp : p.2 = c
      · rw [List.filter_cons_of_pos (by simp [hp]), if_pos hp]
      · rw [List.filter_cons_of_neg (by simp [hp]), if_neg hp]
    · rw [if_neg hc]
      by_cases hr : r.2 = c
      · rw [List.filter_cons_of_pos (by simp [hr]), ih,
          List.filter_cons_of_pos (by simp [hr])]
        by_cases hp : p.2 = c
        · omega
        · rw [if_neg hp, if_neg hp]
      · rw [List.filter_cons_of_neg (by simp [hr]), ih,
          List.filter_cons_of_neg (by simp [hr])]

theorem filter_sortByCountDesc (l : List (Ident × Nat)) (c : Nat) :
    (sortByCountDesc l).filter (fun q => q.2 = c) = l.filter (fun q => q.2 = c) := by
  induction l with
  | nil => rfl
  | cons p ps ih =>
    rw [sortByCountDesc, List.foldr_cons, ← sortByCountDesc, filter_insertByCount]
    by_cases hp : p.2 = c
    · rw [if_pos hp, ih, List.filter_cons_of_pos (by simp [hp])]
    · rw [if_neg hp, ih, List.filter_cons_of_neg (by simp [hp])]

/-- C3 (amended): the ranking counts edge occurrences per target over the
accumulated edge list (`value_counts`); when the list has no duplicate
`(source, target)` pair this equals the number of distinct sources per
target; the report is sorted descending by count, ties keeping first-seen
order (the sort is stable on each count class), and the determinism example
`(A,x),(B,x),(A,y)` with 2 sources yields `x: 2 (100%)`, `y: 1 (50%)`. -/
theorem ranking_amended :
    (∀ (es : List Edge) (t : Ident),
      (es.map (fun e => (e.source, e.follows))).Nodup →
      countOcc t (es.map (fun e => e.follows)) = specDistinctSourceCount es t) ∧
    (∀ l : List Ident, (valueCounts l).Pairwise (fun a b => b.2 ≤ a.2)) ∧
    (∀ (l : List Ident) (c : Nat),
      (valueCounts l).filter (fun q => q.2 = c)
        = ((dedupKeepFirst l).map (fun v => (v, countOcc v l))).filter
            (fun q => q.2 = c)) ∧
    rankingReport [⟨['A'], ['x'], []⟩, ⟨['B'], ['x'], []⟩, ⟨['A'], ['y'], []⟩] 2
      = [(['x'], 2, 100), (['y'], 1, 50)] := by
  refine ⟨count_eq_distinct_sources, fun l => sorted_sortByCountDesc _,
    fun l c => filter_sortByCountDesc _ c, ?_⟩
  have h : valueCounts
      (([⟨['A'], ['x'], []⟩, ⟨['B'], ['x'], []⟩, ⟨['A'], ['y'], []⟩] : List Edge).map
        (fun e => e.follows)) = [(['x'], 2), (['y'], 1)] := by decide
  rw [rankingReport, h]
  norm_num

theorem ranking_amended_witness :
    countOcc ['x']
        (([⟨['A'], ['x'], []⟩, ⟨['B'], ['x'], []⟩, ⟨['A'], ['y'], []⟩] : List Edge).map
          (fun e => e.follows))
      = specDistinctSourceCount
          [⟨['A'], ['x'], []⟩, ⟨['B'], ['x'], []⟩, ⟨['A'], ['y'], []⟩] ['x'] :=
  ranking_amended.1 [⟨['A'], ['x'], []⟩, ⟨['B'], ['x'], []⟩, ⟨['A'], ['y'], []⟩] ['x']
    (by decide)

/-- C3 counterexample: with the duplicated edge `(A,x)` appearing twice, the
ranking reports count 2 (and 100% of the 2 raw list entries) for `x`, while
the number of distinct sources following `x` is 1 — a source contributing a
duplicate edge for the same target is counted twice, not once. -/
theorem ranking_counts_raw_occurrences :
    rankingReport [⟨['A'], ['x'], []⟩, ⟨['A'], ['x'], []⟩] 2 = [(['x'], 2, 100)] ∧
    specDistinctSourceCount [⟨['A'], ['x'], []⟩, ⟨['A'], ['x'], []⟩] ['x'] = 1 := by
  constructor
  · have h : valueCounts
        (([⟨['A'], ['x'], []⟩, ⟨['A'], ['x'], []⟩] : List Edge).map
          (fun e => e.follows)) = [(['x'], 2)] := by decide
    rw [rankingReport, h]
    norm_num
  · decide

/-- C9 counterexample: the target list read from lines `a`, blank, `a` is
`[a, a]` — blank entries are removed but duplicate entries are kept, so an
identity can appear twice in the ordered target list. -/
theorem read_targets_keeps_duplicates :
    readTargets [['a'], [], ['a']] = [['a'], ['a']] ∧
    ¬ (readTargets [['a'], [], ['a']]).Nodup := by
  exact ⟨by decide, by decide⟩

/-- C9 (amended): the TargetSet read from the input list file is the file's
lines, stripped, in order, with blank entries removed; no entry of the result
is empty and the result is a subsequence of the stripped lines. Duplicate
entries are not removed. -/
theorem read_targets_amended (lines : List (List Char)) :
    (∀ t ∈ readTargets lines, t ≠ []) ∧
    List.Sublist (readTargets lines) (lines.map pyStrip) := by
  constructor
  · intro t ht
    have := List.mem_filter.1 ht
    simpa using this.2
  · exact List.filter_sublist _

theorem read_targets_amended_witness :
    (['a'] ≠ ([] : List Char)) ∧ List.Sublist (readTargets [['a']]) ([['a']].map pyStrip) :=
  ⟨(read_targets_amended [['a']]).1 ['a'] (by decide),
   (read_targets_amended [['a']]).2⟩

theorem schedRunAux_cp_hit (beh : Ident → CrawlOutcome) (n i : Nat) (t : Ident)
    (rest : List Ident) (s : SchedState) (recs : List UserRecord)
    (h : cpLookup s.checkpoints t = some recs) :
    schedRunAux beh n i (t :: rest) s
      = schedRunAux beh n (i + 1) rest
          { s with all_relationships := s.all_relationships ++ recordEdges t recs } := by
  rw [schedRunAux, h]

theorem schedRunAux_cp_miss (beh : Ident → CrawlOutcome) (n i : Nat) (t : Ident)
    (rest : List Ident) (s : SchedState)
    (h : cpLookup s.checkpoints t = none) (hb : beh t ≠ .raised) :
    schedRunAux beh n i (t :: rest) s
      = schedRunAux beh n (i + 1) rest
          { checkpoints := if outcomeRecords (beh t) = [] then s.checkpoints
              else s.checkpoints ++ [(t, outcomeRecords (beh t))],
            all_relationships := s.all_relationships ++ recordEdges t (outcomeRecords (beh t)),
            crawled := s.crawled ++ [t],
            delays := s.delays + (if i < n then 1 else 0) } := by
  rw [schedRunAux, h]
  cases hbt : beh t with
  | raised => exact absurd hbt hb
  | unavailable => rfl
  | completed l => rfl

theorem schedRunAux_raised (beh : Ident → CrawlOutcome) (n i : Nat) (t : Ident)
    (rest : List Ident) (s : SchedState)
    (h : cpLookup s.checkpoints t = none) (hb : beh t = .raised) :
    schedRunAux beh n i (t :: rest) s = ({ s with crawled := s.crawled ++ [t] }, true) := by
  rw [schedRunAux, h, hb]

theorem cpLookup_append_of_some (store : CheckpointStore) (kv : Ident × List UserRecord)
    (t : Ident) (v : List UserRecord) (h : cpLookup store t = some v) :
    cpLookup (store ++ [kv]) t = some v := by
  induction store with
  | nil => simp [cpLookup] at h
  | cons p rest ih =>
    obtain ⟨k, w⟩ := p
    rw [cpLookup] at h
    rw [List.cons_append, cpLookup]
    by_cases hk : k = t
    · rwa [if_pos hk] at h ⊢
    · rw [if_neg hk] at h ⊢
      exact ih h

theorem cpLookup_append_of_none (store : CheckpointStore) (kv : Ident × List UserRecord)
    (t : Ident) (h : cpLookup store t = none) :
    cpLookup (store ++ [kv]) t = if kv.1 = t then some kv.2 else none := by
  induction store with
  | nil => rfl
  | cons p rest ih =>
    obtain ⟨k, w⟩ := p
    rw [cpLookup] at h
    rw [List.cons_append, cpLookup]
    by_cases hk : k = t
    · rw [if_pos hk] at h; cases h
    · rw [if_neg hk] at h ⊢
      exact ih h

theorem schedRunAux_no_recrawl (beh : Ident → CrawlOutcome) (n : Nat)
    (targets : List Ident) :
    ∀ (i : Nat) (s : SchedState) (t : Ident),
      cpLookup s.checkpoints t ≠ none → t ∉ s.crawled →
      t ∉ (schedRunAux beh n i targets s).1.crawled := by
  induction targets with
  | nil => intro i s t _ h2; simpa [schedRunAux] using h2
  | cons u rest ih =>
    intro i s t h1 h2
    rcases hcp : cpLookup s.checkpoints u with _ | recs
    · have hut : u ≠ t := fun he => h1 (he ▸ hcp)
      by_cases hb : beh u = .raised
      · rw [schedRunAux_raised beh n i u rest s hcp hb]
        simp only [List.mem_append, List.mem_singleton]
        rintro (hm | rfl)
        · exact h2 hm
        · exact hut rfl
      · rw [schedRunAux_cp_miss beh n i u rest s hcp hb]
        apply ih
        · by_cases hr : outcomeRecords (beh u) = []
          · simpa [hr] using h1
          · simp only [hr, if_neg]
            rcases hv : cpLookup s.checkpoints t with _ | v
            · exact absurd hv h1
            · simp only [hr, if_false]
              rw [cpLookup_append_of_some s.checkpoints (u, outcomeRecords (beh u)) t v hv]
              simp
        · simp only [List.mem_append, List.mem_singleton]
          rintro (hm | rfl)
          · exact h2 hm
          · exact hut rfl
    · rw [schedRunAux_cp_hit beh n i u rest s recs hcp]
      exact ih _ _ t h1 h2

theorem schedRunAux_crawled_nodup (beh : Ident → CrawlOutcome) (n : Nat)
    (hne : ∀ u, outcomeRecords (beh u) ≠ []) (targets : List Ident) :
    ∀ (i : Nat) (s : SchedState),
      s.crawled.Nodup → (∀ u ∈ s.crawled, cpLookup s.checkpoints u ≠ none) →
      (schedRunAux beh n i targets s).1.crawled.Nodup := by
  induction targets with
  | nil => intro i s h1 _; simpa [schedRunAux] using h1
  | cons u rest ih =>
    intro i s h1 hinv
    rcases hcp : cpLookup s.checkpoints u with _ | recs
    · have hb : beh u ≠ .raised := fun hbu => hne u (by rw [hbu]; rfl)
      have hu : u ∉ s.crawled := fun hm => hinv u hm hcp
      rw [schedRunAux_cp_miss beh n i u rest s hcp hb]
      apply ih
      · rw [List.nodup_append]
        refine ⟨h1, List.nodup_singleton u, ?_⟩
        intro a ha hau
        rcases List.mem_singleton.1 hau with rfl
        exact hu ha
      · intro v hv
        simp only [List.mem_append, List.mem_singleton] at hv
        rcases hv with hv | hveq
        · have hvn := hinv v hv
          rcases hw : cpLookup s.checkpoints v with _ | w
          · exact absurd hw hvn
          · rw [if_neg (hne u),
              cpLookup_append_of_some s.checkpoints (u, outcomeRecords (beh u)) v w hw]
            simp
        · subst hveq
          rw [if_neg (hne v),
            cpLookup_append_of_none s.checkpoints (v, outcomeRecords (beh v)) v hcp]
          simp
    · rw [schedRunAux_cp_hit beh n i u rest s recs hcp]
      exact ih _ _ h1 hinv

theorem schedRunAux_cp_persist (beh : Ident → CrawlOutcome) (n : Nat)
    (targets : List Ident) :
    ∀ (i : Nat) (s : SchedState) (t : Ident) (v : List UserRecord),
      cpLookup s.checkpoints t = some v →
      cpLookup (schedRunAux beh n i targets s).1.checkpoints t = some v := by
  induction targets with
  | nil => intro i s t v h; simpa [schedRunAux] using h
  | cons u rest ih =>
    intro i s t v h
    rcases hcp : cpLookup s.checkpoints u with _ | recs
    · by_cases hb : beh u = .raised
      · rw [schedRunAux_raised beh n i u rest s hcp hb]
        simpa using h
      · rw [schedRunAux_cp_miss beh n i u rest s hcp hb]
        apply ih
        by_cases hr : outcomeRecords (beh u) = []
        · simpa [hr] using h
        · show cpLookup (if outcomeRecords (beh u) = [] then s.checkpoints
              else s.checkpoints ++ [(u, outcomeRecords (beh u))]) t = some v
          rw [if_neg hr]
          exact cpLookup_append_of_some s.checkpoints _ t v h
    · rw [schedRunAux_cp_hit beh n i u rest s recs hcp]
      exact ih _ _ t v h

theorem schedRunAux_cp_new (beh : Ident → CrawlOutcome) (n : Nat)
    (targets : List Ident) :
    ∀ (i : Nat) (s : SchedState) (t : Ident),
      cpLookup s.checkpoints t = none →
      cpLookup (schedRunAux beh n i targets s).1.checkpoints t = none ∨
      (cpLookup (schedRunAux beh n i targets s).1.checkpoints t
          = some (outcomeRecords (beh t)) ∧ outcomeRecords (beh t) ≠ []) := by
  induction targets with
  | nil => intro i s t h; left; simpa [schedRunAux] using h
  | cons u rest ih =>
    intro i s t h
    rcases hcp : cpLookup s.checkpoints u with _ | recs
    · by_cases hb : beh u = .raised
      · rw [schedRunAux_raised beh n i u rest s hcp hb]
        left; simpa using h
      · rw [schedRunAux_cp_miss beh n i u rest s hcp hb]
        by_cases hr : outcomeRecords (beh u) = []
        · apply ih
          simpa [hr] using h
        · by_cases hut : u = t
          · subst hut
            right
            refine ⟨?_, hr⟩
            apply schedRunAux_cp_persist
            show cpLookup (if outcomeRecords (beh u) = [] then s.checkpoints
                else s.checkpoints ++ [(u, outcomeRecords (beh u))]) u
              = some (outcomeRecords (beh u))
            rw [if_neg hr, cpLookup_append_of_none _ _ _ h]
            simp
          · apply ih
            show cpLookup (if outcomeRecords (beh u) = [] then s.checkpoints
                else s.checkpoints ++ [(u, outcomeRecords (beh u))]) t = none
            rw [if_neg hr, cpLookup_append_of_none _ _ _ h]
            simp [hut]
    · rw [schedRunAux_cp_hit beh n i u rest s recs hcp]
      exact ih _ _ t h

theorem schedRunAux_no_raise_completes (beh : Ident → CrawlOutcome) (n : Nat)
    (hb : ∀ u, beh u ≠ .raised) (targets : List Ident) :
    ∀ (i : Nat) (s : SchedState), (schedRunAux beh n i targets s).2 = false := by
  induction targets with
  | nil => intro i s; rfl
  | cons u rest ih =>
    intro i s
    rcases hcp : cpLookup s.checkpoints u with _ | recs
    · rw [schedRunAux_cp_miss beh n i u rest s hcp (hb u)]
      exact ih _ _
    · rw [schedRunAux_cp_hit beh n i u rest s recs hcp]
      exact ih _ _

/-- C5 (amended): for each target in order, if a checkpoint exists the
scheduler appends its edges with no crawl and no delay; otherwise it crawls
once, persists a checkpoint only when the result is non-empty, appends the
edges, and counts an inter-target delay when the target is not the last one.
A target checkpointed at run start is never crawled, and when every crawl
yields at least one record no target is crawled twice in a run. -/
theorem scheduler_per_target :
    (∀ (beh : Ident → CrawlOutcome) (n i : Nat) (t : Ident) (rest : List Ident)
        (s : SchedState) (recs : List UserRecord),
      cpLookup s.checkpoints t = some recs →
      schedRunAux beh n i (t :: rest) s
        = schedRunAux beh n (i + 1) rest
            { s with all_relationships := s.all_relationships ++ recordEdges t recs }) ∧
    (∀ (beh : Ident → CrawlOutcome) (n i : Nat) (t : Ident) (rest : List Ident)
        (s : SchedState),
      cpLookup s.checkpoints t = none → beh t ≠ .raised →
      schedRunAux beh n i (t :: rest) s
        = schedRunAux beh n (i + 1) rest
            { checkpoints := if outcomeRecords (beh t) = [] then s.checkpoints
                else s.checkpoints ++ [(t, outcomeRecords (beh t))],
              all_relationships :=
                s.all_relationships ++ recordEdges t (outcomeRecords (beh t)),
              crawled := s.crawled ++ [t],
              delays := s.delays + (if i < n then 1 else 0) }) ∧
    (∀ (beh : Ident → CrawlOutcome) (targets : List Ident) (store : CheckpointStore)
        (t : Ident),
      cpLookup store t ≠ none → t ∉ (schedRun beh targets store).1.crawled) ∧
    (∀ (beh : Ident → CrawlOutcome) (targets : List Ident) (store : CheckpointStore),
      (∀ u, outcomeRecords (beh u) ≠ []) →
      (schedRun beh targets store).1.crawled.Nodup) :=
  ⟨schedRunAux_cp_hit,
   schedRunAux_cp_miss,
   fun beh targets store t h =>
     schedRunAux_no_recrawl beh targets.length targets 1 ⟨store, [], [], 0⟩ t h
       (List.not_mem_nil t),
   fun beh targets store hne =>
     schedRunAux_crawled_nodup beh targets.length hne targets 1 ⟨store, [], [], 0⟩
       List.nodup_nil (fun u hu => absurd hu (List.not_mem_nil u))⟩

theorem scheduler_per_target_witness :
    (schedRunAux (fun _ => CrawlOutcome.completed [⟨['b'], []⟩]) 2 1 [['a'], ['d']]
        ⟨[(['a'], [⟨['c'], []⟩])], [], [], 0⟩
      = schedRunAux (fun _ => CrawlOutcome.completed [⟨['b'], []⟩]) 2 2 [['d']]
          ⟨[(['a'], [⟨['c'], []⟩])], [⟨['a'], ['c'], []⟩], [], 0⟩) ∧
    (schedRunAux (fun _ => CrawlOutcome.completed [⟨['b'], []⟩]) 1 1 [['d']]
        ⟨[], [], [], 0⟩
      = schedRunAux (fun _ => CrawlOutcome.completed [⟨['b'], []⟩]) 1 2 []
          ⟨[(['d'], [⟨['b'], []⟩])], [⟨['d'], ['b'], []⟩], [['d']], 0⟩) ∧
    (['a'] ∉ (schedRun (fun _ => CrawlOutcome.completed [⟨['b'], []⟩]) [['a'], ['d']]
        [(['a'], [⟨['c'], []⟩])]).1.crawled) ∧
    (schedRun (fun _ => CrawlOutcome.completed [⟨['b'], []⟩]) [['a'], ['d']]
        [(['a'], [⟨['c'], []⟩])]).1.crawled.Nodup :=
  ⟨scheduler_per_target.1 (fun _ => CrawlOutcome.completed [⟨['b'], []⟩]) 2 1 ['a'] [['d']]
      ⟨[(['a'], [⟨['c'], []⟩])], [], [], 0⟩ [⟨['c'], []⟩] rfl,
   scheduler_per_target.2.1 (fun _ => CrawlOutcome.completed [⟨['b'], []⟩]) 1 1 ['d'] []
      ⟨[], [], [], 0⟩ rfl (fun hc => CrawlOutcome.noConfusion hc),
   scheduler_per_target.2.2.1 (fun _ => CrawlOutcome.completed [⟨['b'], []⟩]) [['a'], ['d']]
      [(['a'], [⟨['c'], []⟩])] ['a'] (by decide),
   scheduler_per_target.2.2.2 (fun _ => CrawlOutcome.completed [⟨['b'], []⟩]) [['a'], ['d']]
      [(['a'], [⟨['c'], []⟩])] (fun u => by simp [outcomeRecords])⟩

/-- C5 counterexample: with the duplicate target list `[a, a]` and a crawl
that completes with zero records, no checkpoint is written and `a` is crawled
twice in the same run, contradicting both the unconditional checkpoint
persistence and the at-most-one-crawl-per-target parts of the claim. -/
theorem scheduler_recrawl_counterexample :
    (schedRun (fun _ => CrawlOutcome.completed []) [['a'], ['a']] []).1.crawled
        = [['a'], ['a']] ∧
    (schedRun (fun _ => CrawlOutcome.completed []) [['a'], ['a']] []).1.checkpoints = [] := by
  exact ⟨by decide, by decide⟩

/-- C6 (amended): the target-unavailable failure (the following view never
renders a user cell within the bounded wait) is caught inside the collector:
the target contributes zero edges, gets no checkpoint, and the batch
continues; but any other exception escaping a crawl aborts the batch at that
target (the remaining targets are not processed), and a run whose crawls
never raise completes without aborting. -/
theorem crawl_failure_handling :
    (∀ (beh : Ident → CrawlOutcome) (n i : Nat) (t : Ident) (rest : List Ident)
        (s : SchedState),
      cpLookup s.checkpoints t = none → beh t = .unavailable →
      schedRunAux beh n i (t :: rest) s
        = schedRunAux beh n (i + 1) rest
            { s with crawled := s.crawled ++ [t],
                     delays := s.delays + (if i < n then 1 else 0) }) ∧
    (∀ (beh : Ident → CrawlOutcome) (n i : Nat) (t : Ident) (rest : List Ident)
        (s : SchedState),
      cpLookup s.checkpoints t = none → beh t = .raised →
      schedRunAux beh n i (t :: rest) s
        = ({ s with crawled := s.crawled ++ [t] }, true)) ∧
    (∀ (beh : Ident → CrawlOutcome) (targets : List Ident) (store : CheckpointStore),
      (∀ u, beh u ≠ .raised) → (schedRun beh targets store).2 = false) := by
  refine ⟨?_, schedRunAux_raised, ?_⟩
  · intro beh n i t rest s h hb
    rw [schedRunAux_cp_miss beh n i t rest s h (by rw [hb]; exact fun hc => CrawlOutcome.noConfusion hc)]
    congr 1
    rw [hb]
    simp [recordEdges, outcomeRecords]
  · intro beh targets store hb
    exact schedRunAux_no_raise_completes beh targets.length hb targets 1 _

theorem crawl_failure_handling_witness :
    (schedRunAux (fun _ => CrawlOutcome.unavailable) 1 1 [['a']] ⟨[], [], [], 0⟩
      = schedRunAux (fun _ => CrawlOutcome.unavailable) 1 2 [] ⟨[], [], [['a']], 0⟩) ∧
    (schedRunAux (fun _ => CrawlOutcome.raised) 1 1 [['a']] ⟨[], [], [], 0⟩
      = (⟨[], [], [['a']], 0⟩, true)) ∧
    (schedRun (fun _ => CrawlOutcome.completed []) [['a']] []).2 = false :=
  ⟨crawl_failure_handling.1 (fun _ => CrawlOutcome.unavailable) 1 1 ['a'] []
      ⟨[], [], [], 0⟩ rfl rfl,
   crawl_failure_handling.2.1 (fun _ => CrawlOutcome.raised) 1 1 ['a'] []
      ⟨[], [], [], 0⟩ rfl rfl,
   crawl_failure_handling.2.2 (fun _ => CrawlOutcome.completed []) [['a']] []
      (fun _ hc => CrawlOutcome.noConfusion hc)⟩

/-- C6 counterexample: when crawling target `a` raises, the batch stops with
the abort flag set and target `b` is never crawled — the run does not proceed
to the remaining targets as the claim states. -/
theorem crawl_failure_aborts_batch :
    schedRun (fun u => if u = ['a'] then CrawlOutcome.raised
        else CrawlOutcome.completed [⟨['c'], []⟩]) [['a'], ['b']] []
      = (⟨[], [], [['a']], 0⟩, true) := by decide

/-- C7 (amended): checkpoints present at run start persist unchanged; a
target uncheckpointed at run start either stays uncheckpointed or gains
exactly its crawl's non-empty record list; in particular a crawl attempt
that completes with an empty result — like one that raises — leaves the
target uncheckpointed and thus eligible for re-crawl on the next run. -/
theorem checkpoint_creation :
    (∀ (beh : Ident → CrawlOutcome) (targets : List Ident) (store : CheckpointStore)
        (t : Ident) (v : List UserRecord),
      cpLookup store t = some v →
      cpLookup (schedRun beh targets store).1.checkpoints t = some v) ∧
    (∀ (beh : Ident → CrawlOutcome) (targets : List Ident) (store : CheckpointStore)
        (t : Ident),
      cpLookup store t = none →
      cpLookup (schedRun beh targets store).1.checkpoints t = none ∨
      (cpLookup (schedRun beh targets store).1.checkpoints t
          = some (outcomeRecords (beh t)) ∧ outcomeRecords (beh t) ≠ [])) ∧
    (∀ (beh : Ident → CrawlOutcome) (targets : List Ident) (store : CheckpointStore)
        (t : Ident),
      cpLookup store t = none → outcomeRecords (beh t) = [] →
      cpLookup (schedRun beh targets store).1.checkpoints t = none) := by
  refine ⟨fun beh targets store t v h =>
      schedRunAux_cp_persist beh targets.length targets 1 ⟨store, [], [], 0⟩ t v h,
    fun beh targets store t h =>
      schedRunAux_cp_new beh targets.length targets 1 ⟨store, [], [], 0⟩ t h,
    fun beh targets store t h hr => ?_⟩
  rcases schedRunAux_cp_new beh targets.length targets 1 ⟨store, [], [], 0⟩ t h with
    hc | ⟨_, hne⟩
  · exact hc
  · exact absurd hr hne

theorem checkpoint_creation_witness :
    cpLookup (schedRun (fun _ => CrawlOutcome.completed [⟨['b'], []⟩]) [['a'], ['d']]
        [(['a'], [⟨['c'], []⟩])]).1.checkpoints ['a'] = some [⟨['c'], []⟩] ∧
    (cpLookup (schedRun (fun _ => CrawlOutcome.completed [⟨['b'], []⟩]) [['a'], ['d']]
        [(['a'], [⟨['c'], []⟩])]).1.checkpoints ['d'] = none ∨
      (cpLookup (schedRun (fun _ => CrawlOutcome.completed [⟨['b'], []⟩]) [['a'], ['d']]
          [(['a'], [⟨['c'], []⟩])]).1.checkpoints ['d']
        = some (outcomeRecords ((fun _ => CrawlOutcome.completed [⟨['b'], []⟩]) ['d'])) ∧
        outcomeRecords ((fun _ => CrawlOutcome.completed [⟨['b'], []⟩]) ['d']) ≠ [])) ∧
    cpLookup (schedRun (fun _ => CrawlOutcome.completed []) [['a']] []).1.checkpoints ['a']
      = none :=
  ⟨checkpoint_creation.1 (fun _ => CrawlOutcome.completed [⟨['b'], []⟩]) [['a'], ['d']]
      [(['a'], [⟨['c'], []⟩])] ['a'] [⟨['c'], []⟩] rfl,
   checkpoint_creation.2.1 (fun _ => CrawlOutcome.completed [⟨['b'], []⟩]) [['a'], ['d']]
      [(['a'], [⟨['c'], []⟩])] ['d'] rfl,
   checkpoint_creation.2.2 (fun _ => CrawlOutcome.completed []) [['a']] [] ['a'] rfl rfl⟩

/-- C7 counterexample: a crawl attempt that completes with an empty result
(the run finishes without aborting and logs the attempt) writes no
checkpoint, contradicting the claim that a checkpoint is created for every
completed attempt including empty ones. -/
theorem empty_attempt_no_checkpoint :
    (schedRun (fun _ => CrawlOutcome.completed []) [['a']] []).1.checkpoints = [] ∧
    (schedRun (fun _ => CrawlOutcome.completed []) [['a']] []).1.crawled = [['a']] ∧
    (schedRun (fun _ => CrawlOutcome.completed []) [['a']] []).2 = false := by
  exact ⟨by decide, by decide, by decide⟩

end AITwitterFollows
